import Mathlib

/- Shallow embedding of the markdown text-processing core of the
   backlight-prosemirror-editor repository.  JavaScript strings are modelled
   as List Char and every definition mirrors one function of the source
   (gfmHtmlBlocks.js, gfmCompliantEscaping.js, patternUtils.js, tableUtils.js,
   tagfilter.js, patternTextProcessingPlugin.js). -/

/-- The JS whitespace class: the characters matched by the regex class for
whitespace and removed by the trim method of JS strings. -/
def isJsSpace (c : Char) : Bool :=
  c = ' ' || c = '\t' || c = '\n' || c = '\r' || c = '\x0b' || c = '\x0c' ||
  c = '\u00a0' || c = '\u1680' || ('\u2000' ≤ c && c ≤ '\u200a') ||
  c = '\u2028' || c = '\u2029' || c = '\u202f' || c = '\u205f' ||
  c = '\u3000' || c = '\ufeff'

/-- JS String.prototype.trim. -/
def jsTrim (s : List Char) : List Char :=
  ((s.dropWhile isJsSpace).reverse.dropWhile isJsSpace).reverse

/-- JS String.prototype.split with a one-character separator; always returns a
nonempty list of pieces. -/
def splitOnChar (d : Char) : List Char → List (List Char)
  | [] => [[]]
  | c :: rest =>
    if c = d then [] :: splitOnChar d rest
    else
      match splitOnChar d rest with
      | [] => [[c]]
      | l :: ls => (c :: l) :: ls

/-- JS Array.prototype.join with a one-character separator. -/
def joinWith (d : Char) : List (List Char) → List Char
  | [] => []
  | [l] => l
  | l :: ls => l ++ d :: joinWith d ls

/-- JS String.prototype.includes: substring containment. -/
def containsSub (pat : List Char) : List Char → Bool
  | [] => pat.isEmpty
  | c :: rest => pat.isPrefixOf (c :: rest) || containsSub pat rest

/-- Worker for replaceAll: walks the text one character at a time; a positive
skip count silently consumes characters already covered by an emitted match. -/
def replaceAllGo (pat rep : List Char) (skip : Nat) : List Char → List Char
  | [] => []
  | c :: rest =>
    match skip with
    | k + 1 => replaceAllGo pat rep k rest
    | 0 =>
      if pat.isPrefixOf (c :: rest) then
        rep ++ replaceAllGo pat rep (pat.length - 1) rest
      else
        c :: replaceAllGo pat rep 0 rest

/-- Global replacement of a literal pattern, leftmost first, the replaced text
not rescanned: the semantics of JS replace with a global literal regex. -/
def replaceAll (pat rep : List Char) (s : List Char) : List Char :=
  match pat with
  | [] => s
  | _ :: _ => replaceAllGo pat rep 0 s

/-- Case folding used for the case-insensitive regex flags of the source. -/
def toLowerStr (s : List Char) : List Char := s.map Char.toLower

def isAsciiLetter (c : Char) : Bool :=
  ('a' ≤ c && c ≤ 'z') || ('A' ≤ c && c ≤ 'Z')

def isTagNameChar (c : Char) : Bool :=
  isAsciiLetter c || ('0' ≤ c && c ≤ '9') || c = '-'

/-- Parses a leading HTML tag name, a letter followed by letters, digits or
hyphens, returning the name and the rest. -/
def tagNameOf (s : List Char) : Option (List Char × List Char) :=
  match s with
  | c :: rest =>
    if isAsciiLetter c then some (c :: rest.takeWhile isTagNameChar, rest.dropWhile isTagNameChar)
    else none
  | [] => none

namespace GfmHtmlBlocks

/- Embedding of src/utils/gfmHtmlBlocks.js. -/

def BLOCK_LEVEL_TAGS : List (List Char) :=
  [ "address", "article", "aside", "base", "basefont", "blockquote", "body",
    "caption", "center", "col", "colgroup", "dd", "details", "dialog", "dir",
    "div", "dl", "dt", "fieldset", "figcaption", "figure", "footer", "form",
    "frame", "frameset", "h1", "h2", "h3", "h4", "h5", "h6", "head", "header",
    "hr", "html", "iframe", "legend", "li", "link", "main", "menu", "menuitem",
    "nav", "noframes", "ol", "optgroup", "option", "p", "param", "section",
    "source", "summary", "table", "tbody", "td", "tfoot", "th", "thead",
    "title", "tr", "track", "ul" ].map String.data

def SCRIPT_STYLE_PRE : Nat := 1
def COMMENT : Nat := 2
def PROCESSING_INSTRUCTION : Nat := 3
def DECLARATION : Nat := 4
def CDATA : Nat := 5
def BLOCK_LEVEL : Nat := 6
def OTHER : Nat := 7

/-- Type 1 start pattern: an opening angle bracket, then script, pre or style
case-insensitively, then whitespace, a closing angle bracket, or end of line. -/
def type1Start (t : List Char) : Bool :=
  match t with
  | '<' :: r =>
    ([ "script", "pre", "style" ].map String.data).any fun tag =>
      tag.isPrefixOf (toLowerStr r) &&
        (match r.drop tag.length with
         | [] => true
         | c :: _ => isJsSpace c || c = '>')
  | _ => false

/-- Type 4 start pattern: an angle bracket, an exclamation mark, then at least
one ASCII letter; the source regex carries the case-insensitive flag, so both
cases are accepted. -/
def declStart (t : List Char) : Bool :=
  match t with
  | '<' :: '!' :: c :: _ => isAsciiLetter c
  | _ => false

/-- The completeness condition of the type 6 check: after the tag name, either
an immediate closing angle bracket, a self-closing slash-bracket, or whitespace
followed by attribute text that reaches a closing angle bracket. -/
def completeTagFollow (r : List Char) : Bool :=
  match r with
  | '>' :: _ => true
  | '/' :: '>' :: _ => true
  | c :: rest => isJsSpace c && rest.contains '>'
  | [] => false

/-- For the type 7 open-tag pattern: the list must consist of non-bracket
characters followed by a single final closing angle bracket. -/
def onlyFinalGt (l : List Char) : Bool :=
  !l.isEmpty && (l.dropLast.all fun x => x ≠ '>') && l.getLast? = some '>'

/-- Type 7 pattern: the entire trimmed line is exactly one complete open tag or
one complete close tag. -/
def type7Match (t : List Char) : Bool :=
  match t with
  | '<' :: '/' :: r =>
    (match tagNameOf r with
     | some (_, rest) => rest = ['>']
     | none => false)
  | '<' :: r =>
    (match tagNameOf r with
     | some (_, rest) =>
       (match rest with
        | ['>'] => true
        | c :: more => isJsSpace c && onlyFinalGt more
        | [] => false)
     | none => false)
  | _ => false

/-- Type 6 test: extract the leading tag name after an optional slash, require
membership in the block-level tag set and a syntactically complete tag. -/
def type6Match (t : List Char) : Bool :=
  match t with
  | '<' :: r0 =>
    let r1 := match r0 with | '/' :: r => r | _ => r0
    (match tagNameOf r1 with
     | some (name, rest) =>
       BLOCK_LEVEL_TAGS.contains (toLowerStr name) && completeTagFollow rest
     | none => false)
  | _ => false

/-- Embedding of getHtmlBlockStartType: trims the line, then tries the seven
GFM HTML block start conditions in priority order. -/
def getHtmlBlockStartType (line : List Char) : Option Nat :=
  let trimmed := jsTrim line
  if trimmed = [] then none
  else if type1Start trimmed then some SCRIPT_STYLE_PRE
  else if ( "<!--" ).data.isPrefixOf trimmed then some COMMENT
  else if ( "<?" ).data.isPrefixOf trimmed then some PROCESSING_INSTRUCTION
  else if declStart trimmed then some DECLARATION
  else if ( "<![CDATA[" ).data.isPrefixOf trimmed then some CDATA
  else if type6Match trimmed then some BLOCK_LEVEL
  else if type7Match trimmed then some OTHER
  else none

/-- Embedding of isHtmlBlockEnd: the per-type closing-marker test; block-level
and other types always answer false, their end being the blank line handled by
the scanner. -/
def isHtmlBlockEnd (line : List Char) (blockType : Nat) : Bool :=
  let trimmed := jsTrim line
  if blockType = SCRIPT_STYLE_PRE then
    ([ "</script>", "</pre>", "</style>" ].map String.data).any fun p =>
      containsSub p (toLowerStr trimmed)
  else if blockType = COMMENT then containsSub ( "-->" ).data trimmed
  else if blockType = PROCESSING_INSTRUCTION then containsSub ( "?>" ).data trimmed
  else if blockType = DECLARATION then trimmed.contains '>'
  else if blockType = CDATA then containsSub ( "]]>" ).data trimmed
  else false

/-- One HTML block range; the endIdx field carries the JS field named end. -/
structure HtmlBlock where
  start : Nat
  endIdx : Nat
  type : Nat
deriving DecidableEq, Repr

/-- End index of the blank-line loop of findHtmlBlocks for block types 6 and
7: starting from i, the loop advances while the following line exists and is
not blank, which consumes exactly the nonblank prefix after position i. -/
def scanBlankEnd (lines : List (List Char)) (i : Nat) : Nat :=
  i + ((lines.drop (i + 1)).takeWhile fun l => !(jsTrim l).isEmpty).length

/-- End index of the closing-marker loop of findHtmlBlocks for block types 1
through 5: the first position at or after i whose line carries the closing
marker, or the line count when no such line exists. -/
def scanMarkerEnd (lines : List (List Char)) (blockType : Nat) (i : Nat) : Nat :=
  i + (lines.drop i).findIdx fun l => isHtmlBlockEnd l blockType

/-- The forward scan of findHtmlBlocks from position i.  The fuel argument
only bounds the recursion depth: every step advances the position by at least
one, so the fuel passed by findHtmlBlocks is never exhausted. -/
def findHtmlBlocksGo (lines : List (List Char)) : Nat → Nat → List HtmlBlock
  | 0, _ => []
  | fuel + 1, i =>
    if i < lines.length then
      match getHtmlBlockStartType (lines.getD i []) with
      | some bt =>
        let e :=
          if bt = BLOCK_LEVEL || bt = OTHER then scanBlankEnd lines i
          else scanMarkerEnd lines bt i
        ⟨i, e, bt⟩ :: findHtmlBlocksGo lines fuel (e + 1)
      | none => findHtmlBlocksGo lines fuel (i + 1)
    else []

/-- Embedding of findHtmlBlocks. -/
def findHtmlBlocks (lines : List (List Char)) : List HtmlBlock :=
  findHtmlBlocksGo lines (lines.length + 1) 0

end GfmHtmlBlocks

/-- The cell pattern shared by the separator-row detectors: an optional colon,
one or more dashes, then an optional colon; returns the rest on success. -/
def parseSepCell (s : List Char) : Option (List Char) :=
  let s1 := if s.head? = some ':' then s.tail else s
  match s1 with
  | '-' :: r =>
    let r2 := r.dropWhile fun c => c = '-'
    some (if r2.head? = some ':' then r2.tail else r2)
  | _ => none

/-- Full anchored match of the cell pattern, the test applied to each split
cell by the separator detectors of patternUtils.js and tableUtils.js. -/
def cellFullMatch (s : List Char) : Bool :=
  match parseSepCell s with
  | some r => r.isEmpty
  | none => false

namespace GfmCompliantEscaping

/- Embedding of src/extensions/gfmCompliantEscaping.js. -/

/-- The character scan of isGfmTableRow: counts pipes, a backslash making the
following character escaped. -/
def countUnescapedPipes : List Char → Bool → Nat
  | [], _ => 0
  | c :: rest, escaped =>
    if escaped then countUnescapedPipes rest false
    else if c = '\\' then countUnescapedPipes rest true
    else if c = '|' then countUnescapedPipes rest false + 1
    else countUnescapedPipes rest false

/-- Embedding of isGfmTableRow: a nonblank line that does not open with an
escaped pipe and carries at least two unescaped pipes. -/
def isGfmTableRow (line : List Char) : Bool :=
  if (jsTrim line).isEmpty then false
  else
    match line.dropWhile isJsSpace with
    | '\\' :: '|' :: _ => false
    | _ => countUnescapedPipes line false ≥ 2

/-- The repetition loop of the separator-row regex, entered after the first
cell: each iteration consumes one pipe, optional spaces and one further cell;
a trailing bare pipe is accepted when no cell follows it.  The fuel only
bounds the recursion depth; since every iteration consumes a pipe, the fuel
passed by isTableSeparatorRow is never exhausted. -/
def sepLoopF : Nat → List Char → Bool
  | 0, _ => false
  | _ + 1, [] => true
  | fuel + 1, '|' :: r =>
    let r1 := r.dropWhile isJsSpace
    (match parseSepCell r1 with
     | some r2 => sepLoopF fuel (r2.dropWhile isJsSpace)
     | none => r1.isEmpty)
  | _ + 1, _ :: _ => false

/-- Embedding of the isTableSeparatorRow of gfmCompliantEscaping.js: the line
must contain a pipe and a dash, and its trim must match the anchored regex
built from optional leading pipe, cells of colons and dashes separated by
pipes, and an optional trailing pipe, with spaces allowed throughout. -/
def isTableSeparatorRow (line : List Char) : Bool :=
  let trimmed := jsTrim line
  if !(trimmed.contains '|') || !(trimmed.contains '-') then false
  else
    let s0 := trimmed.dropWhile isJsSpace
    let s1 := if s0.head? = some '|' then s0.tail.dropWhile isJsSpace else s0
    match parseSepCell s1 with
    | some r => sepLoopF (trimmed.length + 1) (r.dropWhile isJsSpace)
    | none => false

/-- Embedding of unescapeTableRowCharacters: for each configured character,
first the double-escaped form and then the single-escaped form are globally
replaced by the bare character. -/
def unescapeTableRowCharacters (line : List Char) (unescapeChars : List Char) : List Char :=
  unescapeChars.foldl
    (fun result c => replaceAll ['\\', c] [c] (replaceAll ['\\', '\\', c] [c] result))
    line

/-- The line loop of processTableContent: walks the split lines carrying the
in-table flag and the row counter, looking one line ahead for a separator. -/
def processLines (unescapeChars : List Char) : Bool → Nat → List (List Char) → List (List Char)
  | _, _, [] => []
  | inTable, tableRowCount, line :: rest =>
    let isRow := isGfmTableRow line
    let isSep := isTableSeparatorRow line
    let nextIsSep :=
      match rest.head? with
      | some nl => isTableSeparatorRow nl
      | none => false
    let inT :=
      if !inTable && isRow then (if nextIsSep then true else inTable)
      else if inTable && !isRow && !isSep then false
      else inTable
    let rc :=
      if !inTable && isRow then (if nextIsSep then 0 else tableRowCount)
      else if inTable && !isRow && !isSep then 0
      else tableRowCount
    if inT && (isRow || isSep) then
      unescapeTableRowCharacters line unescapeChars ::
        processLines unescapeChars inT (if isRow then rc + 1 else rc) rest
    else
      line :: processLines unescapeChars inT rc rest

/-- Embedding of processTableContent: split on newlines, run the table-aware
line loop, and join the processed lines back. -/
def processTableContent (markdown : List Char) (unescapeChars : List Char) : List Char :=
  joinWith '\n' (processLines unescapeChars false 0 (splitOnChar '\n' markdown))

end GfmCompliantEscaping

namespace PatternUtils

/- Embedding of src/utils/patternUtils.js. -/

/-- Embedding of the isTableSeparatorRow of patternUtils.js: trim, require a
leading pipe, strip it and one optional trailing pipe, split on pipes and test
every trimmed cell against the alignment pattern. -/
def isTableSeparatorRow (line : List Char) : Bool :=
  if (jsTrim line).isEmpty then false
  else
    let trimmed := jsTrim line
    if trimmed.head? ≠ some '|' then false
    else
      let content := trimmed.tail
      let content2 := if content.getLast? = some '|' then content.dropLast else content
      (splitOnChar '|' content2).all fun col => cellFullMatch (jsTrim col)

end PatternUtils

namespace TableUtils

/- Embedding of src/utils/portable-utils/tableUtils.js, whose separator
detector repeats the patternUtils.js algorithm verbatim. -/

/-- Embedding of the isTableSeparatorRow of tableUtils.js. -/
def isTableSeparatorRow (line : List Char) : Bool :=
  if (jsTrim line).isEmpty then false
  else
    let trimmed := jsTrim line
    if trimmed.head? ≠ some '|' then false
    else
      let content := trimmed.tail
      let content2 := if content.getLast? = some '|' then content.dropLast else content
      (splitOnChar '|' content2).all fun col => cellFullMatch (jsTrim col)

end TableUtils

namespace Tagfilter

/- Embedding of the tagfilter extension source. -/

def DISALLOWED_TAGS : List (List Char) :=
  [ "title", "textarea", "style", "xmp", "iframe", "noembed", "noframes",
    "script", "plaintext" ].map String.data

/-- Splits attribute text at the first closing angle bracket, mirroring the
greedy non-bracket character class of the tagfilter regex. -/
def splitAtGt (cs : List Char) : Option (List Char × List Char) :=
  let w := cs.takeWhile fun c => c ≠ '>'
  if w.length < cs.length then some (w, cs.drop (w.length + 1)) else none

/-- Matches the tail of a disallowed opening tag after the tag name: an
immediate closing bracket, a self-closing slash and bracket, or whitespace
plus attribute text running to a closing bracket.  Returns the attribute
text, the captured slash, and the text after the match. -/
def tagTail (x : List Char) : Option (List Char × List Char × List Char) :=
  match x with
  | '>' :: k => some ([], [], k)
  | '/' :: '>' :: k => some ([], ['/'], k)
  | c :: cs =>
    if isJsSpace c then
      match splitAtGt cs with
      | some (w, k) => some (c :: w, [], k)
      | none => none
    else none
  | [] => none

/-- Tries each disallowed tag name, in order, as a case-insensitive prefix
followed by a valid tag tail; on success returns the replacement body, made of
the original-case name, the attributes and the slash, plus the remainder. -/
def tryTags : List (List Char) → List Char → Option (List Char × List Char)
  | [], _ => none
  | t :: ts, r =>
    if toLowerStr (r.take t.length) = t then
      match tagTail (r.drop t.length) with
      | some (attrs, slash, k) => some (r.take t.length ++ attrs ++ slash, k)
      | none => tryTags ts r
    else tryTags ts r

/-- The global scan of the tagfilter regex: at an opening angle bracket a
disallowed tag match is replaced, only its bracket entity-escaped, and the
scan resumes after the match; a positive skip count consumes characters
already covered by an emitted match. -/
def filterGo (skip : Nat) : List Char → List Char
  | [] => []
  | c :: rest =>
    match skip with
    | k + 1 => filterGo k rest
    | 0 =>
      if c = '<' then
        match tryTags DISALLOWED_TAGS rest with
        | some (body, after) =>
          ( "&lt;" ).data ++ body ++ '>' :: filterGo (rest.length - after.length) rest
        | none => '<' :: filterGo 0 rest
      else c :: filterGo 0 rest

/-- Embedding of filterDisallowedTags. -/
def filterDisallowedTags (text : List Char) : List Char :=
  filterGo 0 text

end Tagfilter

/-- The serializer objects of the plugin layer: the serialize method over an
abstract document type together with the marker flags the guarded plugins
set.  The serialize-wrapping mutation of the source is modelled as functional
update of this structure. -/
structure Serializer (Doc : Type) where
  serialize : Doc → List Char
  patternTextProcessingPatched : Bool := false
  gfmCompliantEscapingPatched : Bool := false

/-- The text-processing plugin contract: a name and a serializer enhancer. -/
structure TextProcessingPlugin (Doc : Type) where
  name : List Char
  enhanceSerializer : Serializer Doc → Serializer Doc

/-- Options of createPatternTextProcessingPlugin.  The JS pattern is a regex
used through a safe stateless tester, modelled as the line predicate it
denotes; custom replacements are modelled for literal from-patterns, the
regex branch of the source being unused by the claims below. -/
structure PatternOptions where
  pattern : Option (List Char → Bool) := none
  unescapeChars : List Char := ['|']
  customReplacements : List (List Char × List Char) := []
  enabled : Bool := true
  globalUnescapeChars : List Char := []

/-- The serialize post-processing of the pattern plugin: global unescapes
everywhere, then per-line unescapes and custom replacements on lines matching
the pattern. -/
def patternPostProcess (o : PatternOptions) (p : List Char → Bool) (result : List Char) :
    List Char :=
  let r1 := o.globalUnescapeChars.foldl (fun acc c => replaceAll ['\\', c] [c] acc) result
  let processed := (splitOnChar '\n' r1).map fun line =>
    if p line then
      let l1 := o.unescapeChars.foldl (fun acc c => replaceAll ['\\', c] [c] acc) line
      o.customReplacements.foldl (fun acc fr => replaceAll fr.1 fr.2 acc) l1
    else line
  joinWith '\n' processed

/-- The plugin value built by createPatternTextProcessingPlugin once the
pattern option is present: the enhancer is guarded by the enabled option and
by the marker flag on the serializer. -/
def patternPluginOf (Doc : Type) (o : PatternOptions) (p : List Char → Bool) :
    TextProcessingPlugin Doc :=
  { name := ( "patternTextProcessing" ).data
    enhanceSerializer := fun s =>
      if !o.enabled then s
      else if s.patternTextProcessingPatched then s
      else { s with patternTextProcessingPatched := true
                    serialize := fun d => patternPostProcess o p (s.serialize d) } }

/-- Embedding of createPatternTextProcessingPlugin: construction fails with a
synchronous error naming the missing pattern option, and otherwise yields the
plugin. -/
def createPatternTextProcessingPlugin (Doc : Type) (o : PatternOptions) :
    Except (List Char) (TextProcessingPlugin Doc) :=
  match o.pattern with
  | none => .error ( "pattern option is required" ).data
  | some p => .ok (patternPluginOf Doc o p)

/-- Embedding of createGfmCompliantEscapingPlugin: the enhancer is guarded by
the marker flag; its serialize wrapper post-processes the output with the
table-context escaping pass.  The node-table patching of the source, which
only sets a transient in-table flag on the serializer state, sits behind the
same guard and is not part of the text-level behaviour modelled here. -/
def createGfmCompliantEscapingPlugin (Doc : Type)
    (unescapeChars : List Char := ['|', '*', '_', '~']) : TextProcessingPlugin Doc :=
  { name := ( "gfmCompliantEscaping" ).data
    enhanceSerializer := fun s =>
      if s.gfmCompliantEscapingPatched then s
      else { s with gfmCompliantEscapingPatched := true
                    serialize := fun d =>
                      GfmCompliantEscaping.processTableContent (s.serialize d) unescapeChars } }

/-- Embedding of createTagfilterTextProcessingPlugin: the enhancer wraps the
serialize method unconditionally, with no marker flag. -/
def createTagfilterTextProcessingPlugin (Doc : Type) : TextProcessingPlugin Doc :=
  { name := ( "tagfilterTextProcessing" ).data
    enhanceSerializer := fun s =>
      { s with serialize := fun d => Tagfilter.filterDisallowedTags (s.serialize d) } }

/-- Modelled from the claim language: position j opens a table region when its
line is a table row immediately followed by a valid separator row. -/
def opensAt (lines : List (List Char)) (j : Nat) : Bool :=
  decide (j + 1 < lines.length) &&
  GfmCompliantEscaping.isGfmTableRow (lines.getD j []) &&
  GfmCompliantEscaping.isTableSeparatorRow (lines.getD (j + 1) [])

/-- A line that still belongs to a table region: a table row or separator. -/
def rowOrSep (lines : List (List Char)) (k : Nat) : Bool :=
  GfmCompliantEscaping.isGfmTableRow (lines.getD k []) ||
  GfmCompliantEscaping.isTableSeparatorRow (lines.getD k [])

/-- Modelled from the claim language: line i belongs to a table region when
some position at or before it opens a region and every line from that opener
through i is still a table row or separator row. -/
def inTableRegion (lines : List (List Char)) (i : Nat) : Bool :=
  (List.range (i + 1)).any fun j =>
    opensAt lines j && (List.range' j (i + 1 - j)).all fun k => rowOrSep lines k

/-- Modelled from the claim language of the separator contract: strip one
optional leading and one optional trailing pipe, split on pipes, and require
every trimmed cell to fully match the alignment pattern. -/
def sepRowSpecOptionalPipe (line : List Char) : Bool :=
  let s1 := if line.head? = some '|' then line.tail else line
  let s2 := if s1.getLast? = some '|' then s1.dropLast else s1
  (splitOnChar '|' s2).all fun cell => cellFullMatch (jsTrim cell)

/-- The leading-pipe variant actually implemented by the shared utils: the
trimmed line must start with a pipe, which is stripped together with one
optional trailing pipe before the per-cell test. -/
def sepRowSpecRequiredPipe (line : List Char) : Bool :=
  match jsTrim line with
  | '|' :: rest =>
    let s2 := if rest.getLast? = some '|' then rest.dropLast else rest
    (splitOnChar '|' s2).all fun cell => cellFullMatch (jsTrim cell)
  | _ => false

/-- The in-table flag update of one loop iteration of processTableContent,
expressed on absolute line positions; used to relate the line loop to the
declarative region predicate. -/
def tableStep (lines : List (List Char)) (j : Nat) (inTable : Bool) : Bool :=
  let isRow := GfmCompliantEscaping.isGfmTableRow (lines.getD j [])
  let isSep := GfmCompliantEscaping.isTableSeparatorRow (lines.getD j [])
  let nextIsSep := decide (j + 1 < lines.length) &&
    GfmCompliantEscaping.isTableSeparatorRow (lines.getD (j + 1) [])
  if !inTable && isRow then (if nextIsSep then true else inTable)
  else if inTable && !isRow && !isSep then false
  else inTable

/-- The in-table flag held by the line loop when it reaches position i. -/
def entryState (lines : List (List Char)) : Nat → Bool
  | 0 => false
  | i + 1 => inTableRegion lines i

/-- The escape-containment fixture of the spec: a paragraph with an escaped
asterisk, a blank line, then a one-column table whose cell also has an
escaped asterisk. -/
def escapeContainmentFixture : List Char :=
  ( r"Regular text with \* asterisk." ).data ++ '\n' :: '\n' ::
    ( r"| Table \* cell |" ).data ++ '\n' :: ( "| --- |" ).data

/-- The expected result: the paragraph keeps its escape, the table cell drops
it. -/
def escapeContainmentExpected : List Char :=
  ( r"Regular text with \* asterisk." ).data ++ '\n' :: '\n' ::
    ( "| Table * cell |" ).data ++ '\n' :: ( "| --- |" ).data

/-- A table whose cell holds a quadruple-escaped pipe: one pass of the
table-context escaping leaves a single-escaped pipe behind, so a second pass
still changes the text. -/
def doubleEscapeTableFixture : List Char :=
  ( r"| a \\\\| b |" ).data ++ '\n' :: ( "| --- |" ).data

theorem splitOnChar_ne_nil (d : Char) (s : List Char) : splitOnChar d s ≠ [] := by
  cases s with
  | nil => simp [splitOnChar]
  | cons c rest =>
    simp only [splitOnChar]
    split
    · simp
    · split <;> simp

theorem joinWith_splitOnChar (d : Char) (s : List Char) :
    joinWith d (splitOnChar d s) = s := by
  induction s with
  | nil => rfl
  | cons c rest ih =>
    simp only [splitOnChar]
    by_cases hc : c = d
    · simp only [hc, if_pos rfl]
      cases h : splitOnChar d rest with
      | nil => exact absurd h (splitOnChar_ne_nil d rest)
      | cons l ls =>
        rw [h] at ih
        simpa [joinWith] using ih
    · simp only [if_neg hc]
      cases h : splitOnChar d rest with
      | nil => exact absurd h (splitOnChar_ne_nil d rest)
      | cons l ls =>
        rw [h] at ih
        cases ls with
        | nil => simpa [joinWith] using ih
        | cons l' ls' => simpa [joinWith] using ih

theorem mem_of_mem_splitOnChar {d : Char} {s l : List Char} {c : Char}
    (hl : l ∈ splitOnChar d s) (hc : c ∈ l) : c ∈ s := by
  induction s generalizing l with
  | nil =>
    simp [splitOnChar] at hl
    subst hl
    simp at hc
  | cons a rest ih =>
    simp only [splitOnChar] at hl
    by_cases ha : a = d
    · rw [if_pos ha] at hl
      rcases List.mem_cons.mp hl with h | h
      · subst h; simp at hc
      · exact List.mem_cons_of_mem a (ih h hc)
    · rw [if_neg ha] at hl
      cases h : splitOnChar d rest with
      | nil => exact absurd h (splitOnChar_ne_nil d rest)
      | cons l' ls' =>
        rw [h] at hl
        rcases List.mem_cons.mp hl with h1 | h1
        · subst h1
          rcases List.mem_cons.mp hc with h2 | h2
          · subst h2; exact List.mem_cons_self c rest
          · exact List.mem_cons_of_mem a (ih (h ▸ List.mem_cons_self l' ls') h2)
        · exact List.mem_cons_of_mem a (ih (h ▸ List.mem_cons_of_mem l' h1) hc)

theorem replaceAllGo_zero_of_not_mem {h : Char} {t rep s : List Char} (hn : h ∉ s) :
    replaceAllGo (h :: t) rep 0 s = s := by
  induction s with
  | nil => rfl
  | cons c rest ih =>
    have hne : (h == c) = false := by
      simp only [beq_eq_false_iff_ne]
      intro he
      exact hn (he ▸ List.mem_cons_self c rest)
    simp only [replaceAllGo, List.isPrefixOf, hne, Bool.false_and, if_neg Bool.false_ne_true]
    rw [ih fun hm => hn (List.mem_cons_of_mem c hm)]

theorem replaceAll_of_not_mem {h : Char} {t rep s : List Char} (hn : h ∉ s) :
    replaceAll (h :: t) rep s = s :=
  replaceAllGo_zero_of_not_mem hn

theorem unescapeTableRow_of_no_backslash {line cs : List Char}
    (hn : ∀ c ∈ line, c ≠ '\\') :
    GfmCompliantEscaping.unescapeTableRowCharacters line cs = line := by
  have hm : '\\' ∉ line := fun hmem => (hn '\\' hmem) rfl
  unfold GfmCompliantEscaping.unescapeTableRowCharacters
  induction cs with
  | nil => rfl
  | cons c cs ih =>
    rw [List.foldl_cons, replaceAll_of_not_mem hm, replaceAll_of_not_mem hm]
    exact ih

theorem processLines_of_no_backslash {cs : List Char} {lines : List (List Char)}
    (hn : ∀ l ∈ lines, ∀ c ∈ l, c ≠ '\\') :
    ∀ t rc, GfmCompliantEscaping.processLines cs t rc lines = lines := by
  induction lines with
  | nil => intro t rc; rfl
  | cons line rest ih =>
    intro t rc
    have hline : ∀ c ∈ line, c ≠ '\\' := hn line (List.mem_cons_self line rest)
    have hrest : ∀ l ∈ rest, ∀ c ∈ l, c ≠ '\\' :=
      fun l hl => hn l (List.mem_cons_of_mem line hl)
    simp only [GfmCompliantEscaping.processLines]
    repeat' split
    all_goals
      first
      | rw [unescapeTableRow_of_no_backslash hline, ih hrest]
      | rw [ih hrest]

theorem tagTryTags_none_of_ne {c : Char} {rest : List Char} (hc : c ≠ '<') :
    Tagfilter.filterGo 0 (c :: rest) = c :: Tagfilter.filterGo 0 rest := by
  simp [Tagfilter.filterGo, hc]

theorem filterGo_of_no_lt {s : List Char} (hn : ∀ c ∈ s, c ≠ '<') :
    Tagfilter.filterGo 0 s = s := by
  induction s with
  | nil => rfl
  | cons c rest ih =>
    rw [tagTryTags_none_of_ne (hn c (List.mem_cons_self c rest))]
    rw [ih fun x hx => hn x (List.mem_cons_of_mem c hx)]

/-- Claim C4: the HTML block classifier sends the canonical fixture line of
each of the seven GFM types to that type, and a mixed-content line, text
before a tag, to no type at all. -/
theorem getHtmlBlockStartType_canonical_fixtures :
    GfmHtmlBlocks.getHtmlBlockStartType ( "<script>" ).data = some 1 ∧
    GfmHtmlBlocks.getHtmlBlockStartType ( "<!--" ).data = some 2 ∧
    GfmHtmlBlocks.getHtmlBlockStartType ( "<?xml version=\"1.0\"?>" ).data = some 3 ∧
    GfmHtmlBlocks.getHtmlBlockStartType ( "<!DOCTYPE html>" ).data = some 4 ∧
    GfmHtmlBlocks.getHtmlBlockStartType ( "<![CDATA[" ).data = some 5 ∧
    GfmHtmlBlocks.getHtmlBlockStartType ( "<div class=\"x\">" ).data = some 6 ∧
    GfmHtmlBlocks.getHtmlBlockStartType ( "<span>" ).data = some 7 ∧
    GfmHtmlBlocks.getHtmlBlockStartType ( "text<span>" ).data = none := by
  refine ⟨?_, ?_, ?_, ?_, ?_, ?_, ?_, ?_⟩ <;> decide

/-- Claim C5, evaluation at the failing input: the classifier trims the whole
line before matching, so lines with four or more leading spaces, which the
claim and the test suite of the repository require to yield none, still
classify; a tab-indented line classifies as well. -/
theorem getHtmlBlockStartType_ignores_indentation :
    GfmHtmlBlocks.getHtmlBlockStartType ( "    <div>" ).data = some 6 ∧
    GfmHtmlBlocks.getHtmlBlockStartType ( "     <script>" ).data = some 1 ∧
    GfmHtmlBlocks.getHtmlBlockStartType ( "\t<div>" ).data = some 6 := by
  refine ⟨?_, ?_, ?_⟩ <;> decide

/-- Claim C2, evaluation at the failing input: on a table-cell line the
double-escaped pipe collapses to a bare pipe, both ordered replacement steps
firing, rather than to the single-escaped pipe the claim requires. -/
theorem unescapeTableRow_double_escape_collapses :
    GfmCompliantEscaping.unescapeTableRowCharacters
        ( r"| Table \\| with escaped backslash |" ).data ['|', '*', '_', '~'] =
      ( "| Table | with escaped backslash |" ).data ∧
    GfmCompliantEscaping.unescapeTableRowCharacters
        ( r"| Table \\| with escaped backslash |" ).data ['|', '*', '_', '~'] ≠
      ( r"| Table \| with escaped backslash |" ).data := by
  refine ⟨?_, ?_⟩ <;> decide

/-- Claim C3 is false as stated: the tag filter applied twice to a disallowed
tag whose attribute text hides a second disallowed tag differs from one
application, and the table-context pass applied twice to a table cell holding
a quadruple-escaped pipe differs from one application. -/
theorem escape_passes_not_idempotent :
    (Tagfilter.filterDisallowedTags
        (Tagfilter.filterDisallowedTags ( "<script <style>>" ).data) ≠
      Tagfilter.filterDisallowedTags ( "<script <style>>" ).data) ∧
    (GfmCompliantEscaping.processTableContent
        (GfmCompliantEscaping.processTableContent doubleEscapeTableFixture ['|', '*', '_', '~'])
        ['|', '*', '_', '~'] ≠
      GfmCompliantEscaping.processTableContent doubleEscapeTableFixture ['|', '*', '_', '~']) := by
  refine ⟨?_, ?_⟩ <;> decide

/-- Claim C3 (amended): each pass fixes every input already free of the
sequences it rewrites, so on such inputs running it twice equals running it
once: the table-context pass is the identity on backslash-free markdown, and
the tag filter is the identity on text without an opening angle bracket. -/
theorem escape_passes_identity_on_untouched :
    (∀ (md cs : List Char), (∀ c ∈ md, c ≠ '\\') →
      GfmCompliantEscaping.processTableContent md cs = md) ∧
    (∀ s : List Char, (∀ c ∈ s, c ≠ '<') →
      Tagfilter.filterDisallowedTags s = s) := by
  constructor
  · intro md cs hmd
    unfold GfmCompliantEscaping.processTableContent
    rw [processLines_of_no_backslash
      (fun l hl c hc => hmd c (mem_of_mem_splitOnChar hl hc))]
    exact joinWith_splitOnChar '\n' md
  · intro s hs
    exact filterGo_of_no_lt hs

/-- Witness for the amended claim C3 at concrete inputs. -/
theorem escape_passes_identity_on_untouched_witness :
    GfmCompliantEscaping.processTableContent ( "| a | b |" ).data ['|', '*', '_', '~'] =
      ( "| a | b |" ).data ∧
    Tagfilter.filterDisallowedTags ( "plain text" ).data = ( "plain text" ).data :=
  ⟨escape_passes_identity_on_untouched.1 ( "| a | b |" ).data ['|', '*', '_', '~'] (by decide),
   escape_passes_identity_on_untouched.2 ( "plain text" ).data (by decide)⟩

/-- Claim C8 is false as stated: on the pipe-separated dashes without leading
pipe, the optional-leading-pipe reading of the claim accepts, and so does the
detector local to the escaping pass, but the shared utils detectors cited by
the claim reject, requiring the leading pipe. -/
theorem separatorRow_leading_pipe_mismatch :
    sepRowSpecOptionalPipe ( "---|---" ).data = true ∧
    GfmCompliantEscaping.isTableSeparatorRow ( "---|---" ).data = true ∧
    PatternUtils.isTableSeparatorRow ( "---|---" ).data = false ∧
    TableUtils.isTableSeparatorRow ( "---|---" ).data = false := by
  refine ⟨?_, ?_, ?_, ?_⟩ <;> decide

/-- Claim C9 is false as stated: the tagfilter plugin carries no marker
guard, so enhancing an already enhanced serializer stacks a second filter
pass, and on output where the filter is not idempotent the behaviour of the
twice-enhanced serializer differs from the once-enhanced one. -/
theorem tagfilter_double_enhance_changes_behaviour :
    ((createTagfilterTextProcessingPlugin Unit).enhanceSerializer
        ((createTagfilterTextProcessingPlugin Unit).enhanceSerializer
          { serialize := fun _ => ( "<script <style>>" ).data })).serialize () ≠
      ((createTagfilterTextProcessingPlugin Unit).enhanceSerializer
        { serialize := fun _ => ( "<script <style>>" ).data }).serialize () := by
  decide

/-- Claim C9 (amended): the two marker-guarded plugins are idempotent
enhancers: for the pattern text-processing plugin and the table-context
escaping plugin, a second application of enhanceSerializer returns the
serializer produced by the first application unchanged. -/
theorem guarded_plugins_enhance_idempotent :
    (∀ (Doc : Type) (o : PatternOptions) (p : List Char → Bool) (s : Serializer Doc),
      (patternPluginOf Doc o p).enhanceSerializer
          ((patternPluginOf Doc o p).enhanceSerializer s) =
        (patternPluginOf Doc o p).enhanceSerializer s) ∧
    (∀ (Doc : Type) (cs : List Char) (s : Serializer Doc),
      (createGfmCompliantEscapingPlugin Doc cs).enhanceSerializer
          ((createGfmCompliantEscapingPlugin Doc cs).enhanceSerializer s) =
        (createGfmCompliantEscapingPlugin Doc cs).enhanceSerializer s) := by
  constructor
  · intro Doc o p s
    by_cases he : o.enabled
    · by_cases hp : s.patternTextProcessingPatched <;>
        simp [patternPluginOf, he, hp]
    · simp [patternPluginOf, he]
  · intro Doc cs s
    by_cases hp : s.gfmCompliantEscapingPatched <;>
      simp [createGfmCompliantEscapingPlugin, hp]

/-- Claim C10: plugin construction fails synchronously, with the error
naming the missing pattern option, exactly when that option is absent; when a
pattern is supplied, construction succeeds with the plugin value.  The
returned enhancer and its serialize wrapper are total functions of this
development, so no configuration error is deferred to serialize time. -/
theorem createPatternPlugin_fails_fast :
    (∀ (Doc : Type) (o : PatternOptions), o.pattern = none →
      createPatternTextProcessingPlugin Doc o =
        .error ( "pattern option is required" ).data) ∧
    (∀ (Doc : Type) (o : PatternOptions) (p : List Char → Bool), o.pattern = some p →
      createPatternTextProcessingPlugin Doc o = .ok (patternPluginOf Doc o p)) := by
  constructor
  · intro Doc o h
    simp [createPatternTextProcessingPlugin, h]
  · intro Doc o p h
    simp [createPatternTextProcessingPlugin, h]

/-- Witness for claim C10 at concrete options. -/
theorem createPatternPlugin_fails_fast_witness :
    createPatternTextProcessingPlugin Unit {} =
      .error ( "pattern option is required" ).data ∧
    createPatternTextProcessingPlugin Unit { pattern := some fun _ => true } =
      .ok (patternPluginOf Unit { pattern := some fun _ => true } fun _ => true) :=
  ⟨createPatternPlugin_fails_fast.1 Unit {} rfl,
   createPatternPlugin_fails_fast.2 Unit { pattern := some fun _ => true } (fun _ => true) rfl⟩

/-- Claim C8 (amended): the shared utils detectors require the leading pipe:
each agrees, on every line, with the strip-split-match contract restricted to
a mandatory leading pipe, and the tableUtils detector repeats the
patternUtils one exactly; only the detector private to the escaping pass
accepts the pipe-separated dashes with no leading pipe. -/
theorem utils_separator_characterization :
    (∀ line : List Char,
      PatternUtils.isTableSeparatorRow line = sepRowSpecRequiredPipe line) ∧
    (∀ line : List Char,
      TableUtils.isTableSeparatorRow line = PatternUtils.isTableSeparatorRow line) ∧
    GfmCompliantEscaping.isTableSeparatorRow ( "---|---" ).data = true ∧
    PatternUtils.isTableSeparatorRow ( "---|---" ).data = false := by
  refine ⟨?_, fun _ => rfl, by decide, by decide⟩
  intro line
  unfold PatternUtils.isTableSeparatorRow sepRowSpecRequiredPipe
  cases h : jsTrim line with
  | nil => simp [h]
  | cons c cs =>
    by_cases hc : c = '|'
    · subst hc
      simp [h]
    · simp [h, hc]

theorem scanBlankEnd_ge (lines : List (List Char)) (i : Nat) :
    i ≤ GfmHtmlBlocks.scanBlankEnd lines i :=
  Nat.le_add_right _ _

theorem scanMarkerEnd_ge (lines : List (List Char)) (bt i : Nat) :
    i ≤ GfmHtmlBlocks.scanMarkerEnd lines bt i :=
  Nat.le_add_right _ _

theorem blockScanEnd_ge (lines : List (List Char)) (bt i : Nat) :
    i ≤ (if bt = GfmHtmlBlocks.BLOCK_LEVEL || bt = GfmHtmlBlocks.OTHER
         then GfmHtmlBlocks.scanBlankEnd lines i
         else GfmHtmlBlocks.scanMarkerEnd lines bt i) := by
  split
  · exact scanBlankEnd_ge lines i
  · exact scanMarkerEnd_ge lines bt i

theorem findHtmlBlocksGo_mem_bounds (lines : List (List Char)) :
    ∀ (fuel i : Nat), ∀ b ∈ GfmHtmlBlocks.findHtmlBlocksGo lines fuel i,
      i ≤ b.start ∧ b.start ≤ b.endIdx := by
  intro fuel
  induction fuel with
  | zero => intro i b hb; simp [GfmHtmlBlocks.findHtmlBlocksGo] at hb
  | succ fuel ih =>
    intro i b hb
    simp only [GfmHtmlBlocks.findHtmlBlocksGo] at hb
    by_cases hlen : i < lines.length
    · rw [if_pos hlen] at hb
      cases hcl : GfmHtmlBlocks.getHtmlBlockStartType (lines.getD i []) with
      | none =>
        rw [hcl] at hb
        have h := ih (i + 1) b hb
        exact ⟨Nat.le_of_succ_le h.1, h.2⟩
      | some bt =>
        rw [hcl] at hb
        rcases List.mem_cons.mp hb with h1 | h1
        · subst h1
          exact ⟨Nat.le_refl _, blockScanEnd_ge lines bt i⟩
        · have h := ih _ b h1
          refine ⟨?_, h.2⟩
          have he := blockScanEnd_ge lines bt i
          omega
    · rw [if_neg hlen] at hb
      simp at hb

theorem findHtmlBlocksGo_pairwise (lines : List (List Char)) :
    ∀ (fuel i : Nat),
      List.Pairwise (fun a b => a.endIdx < b.start)
        (GfmHtmlBlocks.findHtmlBlocksGo lines fuel i) := by
  intro fuel
  induction fuel with
  | zero => intro i; simp [GfmHtmlBlocks.findHtmlBlocksGo]
  | succ fuel ih =>
    intro i
    simp only [GfmHtmlBlocks.findHtmlBlocksGo]
    by_cases hlen : i < lines.length
    · rw [if_pos hlen]
      cases hcl : GfmHtmlBlocks.getHtmlBlockStartType (lines.getD i []) with
      | none => exact ih (i + 1)
      | some bt =>
        refine List.pairwise_cons.mpr ⟨?_, ih _⟩
        intro b hb
        have h := (findHtmlBlocksGo_mem_bounds lines fuel _ b hb).1
        simpa using h
    · rw [if_neg hlen]
      exact List.Pairwise.nil

/-- Claim C7: the block ranges of one scan are pairwise non-overlapping and
produced in increasing order, every earlier range ending strictly before the
next begins because the scan resumes past each range, and each range has its
start at most its end. -/
theorem findHtmlBlocks_ranges_disjoint :
    ∀ lines : List (List Char),
      List.Pairwise (fun a b => a.endIdx < b.start)
        (GfmHtmlBlocks.findHtmlBlocks lines) ∧
      ∀ b ∈ GfmHtmlBlocks.findHtmlBlocks lines, b.start ≤ b.endIdx :=
  fun lines =>
    ⟨findHtmlBlocksGo_pairwise lines (lines.length + 1) 0,
     fun b hb => (findHtmlBlocksGo_mem_bounds lines (lines.length + 1) 0 b hb).2⟩

/-- Witness for claim C7 on a concrete two-line document. -/
theorem findHtmlBlocks_ranges_disjoint_witness :
    (⟨0, 1, 6⟩ : GfmHtmlBlocks.HtmlBlock).start ≤
      (⟨0, 1, 6⟩ : GfmHtmlBlocks.HtmlBlock).endIdx :=
  (findHtmlBlocks_ranges_disjoint [( "<div>" ).data, ( "x" ).data]).2
    ⟨0, 1, 6⟩ (by decide)

theorem scanMarkerEnd_of_no_marker (lines : List (List Char)) (bt i : Nat)
    (hi : i ≤ lines.length)
    (h : ∀ k, i ≤ k → k < lines.length →
      GfmHtmlBlocks.isHtmlBlockEnd (lines.getD k []) bt = false) :
    GfmHtmlBlocks.scanMarkerEnd lines bt i = lines.length := by
  unfold GfmHtmlBlocks.scanMarkerEnd
  have hidx : (lines.drop i).findIdx (fun l => GfmHtmlBlocks.isHtmlBlockEnd l bt) =
      (lines.drop i).length := by
    apply List.findIdx_eq_length_of_false
    intro x hx
    rcases List.getElem_of_mem hx with ⟨j, hj, hxj⟩
    have hjlen : i + j < lines.length := by
      have := List.length_drop i lines
      omega
    have : x = lines.getD (i + j) [] := by
      rw [List.getD_eq_getElem lines [] hjlen, ← hxj, List.getElem_drop]
    rw [this]
    exact h (i + j) (Nat.le_add_right _ _) hjlen
  rw [hidx, List.length_drop]
  omega

theorem findHtmlBlocksGo_unterminated (lines : List (List Char)) :
    ∀ (fuel i : Nat) (b : GfmHtmlBlocks.HtmlBlock),
      b ∈ GfmHtmlBlocks.findHtmlBlocksGo lines fuel i →
      (b.type = 1 ∨ b.type = 2 ∨ b.type = 3 ∨ b.type = 4 ∨ b.type = 5) →
      (∀ k, b.start ≤ k → k < lines.length →
        GfmHtmlBlocks.isHtmlBlockEnd (lines.getD k []) b.type = false) →
      b.endIdx = lines.length := by
  intro fuel
  induction fuel with
  | zero => intro i b hb; simp [GfmHtmlBlocks.findHtmlBlocksGo] at hb
  | succ fuel ih =>
    intro i b hb htype hnomark
    simp only [GfmHtmlBlocks.findHtmlBlocksGo] at hb
    by_cases hlen : i < lines.length
    · rw [if_pos hlen] at hb
      cases hcl : GfmHtmlBlocks.getHtmlBlockStartType (lines.getD i []) with
      | none =>
        rw [hcl] at hb
        exact ih (i + 1) b hb htype hnomark
      | some bt =>
        rw [hcl] at hb
        rcases List.mem_cons.mp hb with h1 | h1
        · subst h1
          simp only at htype hnomark ⊢
          have hif : (bt = GfmHtmlBlocks.BLOCK_LEVEL || bt = GfmHtmlBlocks.OTHER) = false := by
            simp only [GfmHtmlBlocks.BLOCK_LEVEL, GfmHtmlBlocks.OTHER]
            rcases htype with h | h | h | h | h <;> simp_all
          rw [if_neg (by simp [hif])]
          exact scanMarkerEnd_of_no_marker lines bt i (Nat.le_of_lt hlen) hnomark
        · exact ih _ b h1 htype hnomark
    · rw [if_neg hlen] at hb
      simp at hb

/-- Claim C6 is false as stated: for the one-line document consisting of an
unterminated comment opener the scanner returns the range with end equal to
the line count, one, not to the last line index, zero. -/
theorem findHtmlBlocks_unterminated_comment_extent :
    GfmHtmlBlocks.findHtmlBlocks [( "<!--" ).data] = [⟨0, 1, 2⟩] ∧
    [( "<!--" ).data].length - 1 = 0 ∧ (1 : Nat) ≠ 0 := by
  refine ⟨by decide, by decide, by decide⟩

/-- Claim C6 (amended): the scanner, a total function, never fails on any
line array, and a block of a marker-terminated type with no closing marker
from its start to the end of input extends to end equal to the number of
lines, one past the last line index, covering every remaining line. -/
theorem findHtmlBlocks_unterminated_extends :
    ∀ (lines : List (List Char)) (b : GfmHtmlBlocks.HtmlBlock),
      b ∈ GfmHtmlBlocks.findHtmlBlocks lines →
      (b.type = 1 ∨ b.type = 2 ∨ b.type = 3 ∨ b.type = 4 ∨ b.type = 5) →
      (∀ k, b.start ≤ k → k < lines.length →
        GfmHtmlBlocks.isHtmlBlockEnd (lines.getD k []) b.type = false) →
      b.endIdx = lines.length :=
  fun lines b hb => findHtmlBlocksGo_unterminated lines (lines.length + 1) 0 b hb

/-- Witness for the amended claim C6 on the unterminated comment document. -/
theorem findHtmlBlocks_unterminated_extends_witness :
    (⟨0, 1, 2⟩ : GfmHtmlBlocks.HtmlBlock).endIdx = [( "<!--" ).data].length :=
  findHtmlBlocks_unterminated_extends [( "<!--" ).data] ⟨0, 1, 2⟩
    (by decide) (by decide) (by decide)

theorem opensAt_rowOrSep {lines : List (List Char)} {j : Nat}
    (h : opensAt lines j = true) : rowOrSep lines j = true := by
  unfold opensAt at h
  unfold rowOrSep
  simp only [Bool.and_eq_true] at h
  rw [Bool.or_eq_true]
  exact Or.inl h.1.2

theorem inTableRegion_iff (lines : List (List Char)) (n : Nat) :
    inTableRegion lines n = true ↔
      ∃ j, j ≤ n ∧ opensAt lines j = true ∧
        ∀ k, j ≤ k → k ≤ n → rowOrSep lines k = true := by
  unfold inTableRegion
  rw [List.any_eq_true]
  constructor
  · rintro ⟨j, hj, hcond⟩
    rw [Bool.and_eq_true, List.all_eq_true] at hcond
    have hjn : j ≤ n := by
      have := List.mem_range.mp hj
      omega
    refine ⟨j, hjn, hcond.1, fun k hk1 hk2 => hcond.2 k ?_⟩
    rw [List.mem_range'_1]
    omega
  · rintro ⟨j, hjn, hopen, hall⟩
    refine ⟨j, List.mem_range.mpr (by omega), ?_⟩
    rw [Bool.and_eq_true, List.all_eq_true]
    refine ⟨hopen, fun k hk => ?_⟩
    rw [List.mem_range'_1] at hk
    exact hall k hk.1 (by omega)

theorem inTableRegion_rowOrSep {lines : List (List Char)} {n : Nat}
    (h : inTableRegion lines n = true) : rowOrSep lines n = true := by
  rcases (inTableRegion_iff lines n).mp h with ⟨j, hjn, _, hall⟩
  exact hall n hjn (Nat.le_refl n)

theorem inTableRegion_zero (lines : List (List Char)) :
    inTableRegion lines 0 = opensAt lines 0 := by
  by_cases h : opensAt lines 0 = true
  · rw [h]
    exact (inTableRegion_iff lines 0).mpr
      ⟨0, Nat.le_refl 0, h, fun k hk1 hk2 => by
        have : k = 0 := Nat.le_antisymm hk2 hk1
        subst this
        exact opensAt_rowOrSep h⟩
  · have h' : opensAt lines 0 = false := by simpa using h
    rw [h']
    by_contra hc
    have : inTableRegion lines 0 = true := by simpa using hc
    rcases (inTableRegion_iff lines 0).mp this with ⟨j, hj, hopen, _⟩
    have : j = 0 := Nat.le_zero.mp hj
    subst this
    exact h hopen

theorem inTableRegion_succ (lines : List (List Char)) (i : Nat) :
    inTableRegion lines (i + 1) =
      ((inTableRegion lines i && rowOrSep lines (i + 1)) || opensAt lines (i + 1)) := by
  rw [Bool.eq_iff_iff]
  rw [inTableRegion_iff]
  simp only [Bool.or_eq_true, Bool.and_eq_true]
  constructor
  · rintro ⟨j, hjn, hopen, hall⟩
    by_cases hj : j = i + 1
    · subst hj
      exact Or.inr hopen
    · have hji : j ≤ i := by omega
      refine Or.inl ⟨?_, hall (i + 1) (by omega) (Nat.le_refl _)⟩
      exact (inTableRegion_iff lines i).mpr
        ⟨j, hji, hopen, fun k hk1 hk2 => hall k hk1 (by omega)⟩
  · rintro (⟨hreg, hrs⟩ | hopen)
    · rcases (inTableRegion_iff lines i).mp hreg with ⟨j, hjn, hopen, hall⟩
      refine ⟨j, by omega, hopen, fun k hk1 hk2 => ?_⟩
      by_cases hk : k = i + 1
      · subst hk; exact hrs
      · exact hall k hk1 (by omega)
    · refine ⟨i + 1, Nat.le_refl _, hopen, fun k hk1 hk2 => ?_⟩
      have : k = i + 1 := Nat.le_antisymm hk2 hk1
      subst this
      exact opensAt_rowOrSep hopen

theorem tableStep_entry (lines : List (List Char)) (i : Nat) :
    tableStep lines i (entryState lines i) = inTableRegion lines i := by
  cases i with
  | zero =>
    show tableStep lines 0 false = _
    rw [inTableRegion_zero]
    unfold tableStep opensAt
    cases hb : decide (0 + 1 < lines.length) <;>
      cases hr : GfmCompliantEscaping.isGfmTableRow (lines.getD 0 []) <;>
        cases hs : GfmCompliantEscaping.isTableSeparatorRow (lines.getD (0 + 1) []) <;>
          simp [hb, hr, hs]
  | succ i =>
    show tableStep lines (i + 1) (inTableRegion lines i) = _
    rw [inTableRegion_succ]
    unfold tableStep opensAt rowOrSep
    cases hreg : inTableRegion lines i <;>
      cases hr : GfmCompliantEscaping.isGfmTableRow (lines.getD (i + 1) []) <;>
        cases hsep : GfmCompliantEscaping.isTableSeparatorRow (lines.getD (i + 1) []) <;>
          cases hb : decide (i + 1 + 1 < lines.length) <;>
            cases hn : GfmCompliantEscaping.isTableSeparatorRow (lines.getD (i + 1 + 1) []) <;>
              simp [hreg, hr, hsep, hb, hn]

theorem entryState_succ (lines : List (List Char)) (i : Nat) :
    entryState lines (i + 1) = inTableRegion lines i := rfl

theorem processLines_eq_map (lines : List (List Char)) (cs : List Char) :
    ∀ (n i rc : Nat), lines.length - i ≤ n →
      GfmCompliantEscaping.processLines cs (entryState lines i) rc (lines.drop i) =
        (List.range' i (lines.length - i)).map fun j =>
          if inTableRegion lines j = true
          then GfmCompliantEscaping.unescapeTableRowCharacters (lines.getD j []) cs
          else lines.getD j [] := by
  intro n
  induction n with
  | zero =>
    intro i rc h
    have hge : lines.length ≤ i := by omega
    have h0 : lines.length - i = 0 := by omega
    rw [List.drop_eq_nil_of_le hge, h0]
    rfl
  | succ n ih =>
    intro i rc h
    by_cases hlen : i < lines.length
    · have hdrop : lines.drop i = lines.getD i [] :: lines.drop (i + 1) := by
        rw [List.getD_eq_getElem lines [] hlen]
        exact List.drop_eq_getElem_cons hlen
      rw [hdrop]
      simp only [GfmCompliantEscaping.processLines]
      have hnext :
          (match (lines.drop (i + 1)).head? with
            | some nl => GfmCompliantEscaping.isTableSeparatorRow nl
            | none => false) =
          (decide (i + 1 < lines.length) &&
            GfmCompliantEscaping.isTableSeparatorRow (lines.getD (i + 1) [])) := by
        rw [List.head?_drop]
        by_cases h2 : i + 1 < lines.length
        · rw [List.getElem?_eq_getElem h2]
          simp [List.getD_eq_getElem lines [] h2, h2]
        · rw [List.getElem?_eq_none (by omega)]
          simp [h2]
      rw [hnext]
      have hstep := tableStep_entry lines i
      simp only [tableStep] at hstep
      rw [hstep]
      have hsz : lines.length - i = (lines.length - (i + 1)) + 1 := by omega
      rw [hsz, List.range'_succ]
      simp only [List.map_cons]
      cases hreg : inTableRegion lines i with
      | true =>
        have hrs := inTableRegion_rowOrSep hreg
        unfold rowOrSep at hrs
        simp only [hrs, Bool.true_and, eq_self_iff_true, if_true]
        congr 1
        have ih' : ∀ rc', GfmCompliantEscaping.processLines cs true rc' (lines.drop (i + 1)) =
            (List.range' (i + 1) (lines.length - (i + 1))).map fun j =>
              if inTableRegion lines j = true
              then GfmCompliantEscaping.unescapeTableRowCharacters (lines.getD j []) cs
              else lines.getD j [] := by
          intro rc'
          have hih := ih (i + 1) rc' (by omega)
          rw [entryState_succ, hreg] at hih
          exact hih
        exact ih' _
      | false =>
        simp only [Bool.false_and, Bool.false_eq_true, if_false]
        congr 1
        have ih' : ∀ rc', GfmCompliantEscaping.processLines cs false rc' (lines.drop (i + 1)) =
            (List.range' (i + 1) (lines.length - (i + 1))).map fun j =>
              if inTableRegion lines j = true
              then GfmCompliantEscaping.unescapeTableRowCharacters (lines.getD j []) cs
              else lines.getD j [] := by
          intro rc'
          have hih := ih (i + 1) rc' (by omega)
          rw [entryState_succ, hreg] at hih
          exact hih
        exact ih' _
    · have hge : lines.length ≤ i := by omega
      have h0 : lines.length - i = 0 := by omega
      rw [List.drop_eq_nil_of_le hge, h0]
      rfl

theorem processLines_closed_form (lines : List (List Char)) (cs : List Char) :
    GfmCompliantEscaping.processLines cs false 0 lines =
      (List.range' 0 lines.length).map fun j =>
        if inTableRegion lines j = true
        then GfmCompliantEscaping.unescapeTableRowCharacters (lines.getD j []) cs
        else lines.getD j [] := by
  have hmap := processLines_eq_map lines cs lines.length 0 0 (by omega)
  rw [List.drop_zero] at hmap
  simp only [entryState, Nat.sub_zero] at hmap
  exact hmap

/-- Claim C1: the table-context escaping pass keeps the line count, rewrites a
line exactly when it belongs to a table region, a region being opened by a
table row immediately followed by a valid separator row and continued by
contiguous rows and separators, and leaves every line outside such regions
byte for byte unchanged; on the escape-containment fixture the paragraph
keeps its escaped asterisk while the table cell loses its escape. -/
theorem processTableContent_region_characterization :
    (∀ (lines : List (List Char)) (cs : List Char),
      (GfmCompliantEscaping.processLines cs false 0 lines).length = lines.length) ∧
    (∀ (lines : List (List Char)) (cs : List Char) (i : Nat), i < lines.length →
      (GfmCompliantEscaping.processLines cs false 0 lines).getD i [] =
        (if inTableRegion lines i = true
         then GfmCompliantEscaping.unescapeTableRowCharacters (lines.getD i []) cs
         else lines.getD i [])) ∧
    GfmCompliantEscaping.processTableContent escapeContainmentFixture ['|', '*', '_', '~'] =
      escapeContainmentExpected := by
  refine ⟨?_, ?_, by decide⟩
  · intro lines cs
    rw [processLines_closed_form]
    simp
  · intro lines cs i hi
    rw [processLines_closed_form]
    have hlen : i < ((List.range' 0 lines.length).map fun j =>
        if inTableRegion lines j = true
        then GfmCompliantEscaping.unescapeTableRowCharacters (lines.getD j []) cs
        else lines.getD j []).length := by
      simpa using hi
    rw [List.getD_eq_getElem _ [] hlen]
    simp [List.getElem_range'_1]

/-- Witness for claim C1 on a concrete two-line table. -/
theorem processTableContent_region_characterization_witness :
    (GfmCompliantEscaping.processLines ['|'] false 0
        [( r"| x \| y |" ).data, ( "| --- |" ).data]).getD 0 [] =
      (if inTableRegion [( r"| x \| y |" ).data, ( "| --- |" ).data] 0 = true
       then GfmCompliantEscaping.unescapeTableRowCharacters
         ([( r"| x \| y |" ).data, ( "| --- |" ).data].getD 0 []) ['|']
       else [( r"| x \| y |" ).data, ( "| --- |" ).data].getD 0 []) :=
  processTableContent_region_characterization.2.1 _ ['|'] 0 (by decide)
